import Mathlib

/-!
Verification of the DKIM verifier core (repository `rrecord-verity`).

This file gives a shallow embedding of the two WebAssembly modules
`src/wasm/parser/src/lib.rs` and `src/wasm/crypto/src/lib.rs` and proves
properties of the embedded functions.  Conventions:

* Rust `&str` values are modelled as `List Char`; Rust byte buffers
  (`&[u8]`, `Vec<u8>`) as `List Nat`.
* Fallible Rust functions returning `Result<T, E>` are modelled as
  `Except (List Char) T`.
* The external cryptographic primitives (`ed25519_dalek`, `rsa`, `sha2`)
  are not reimplemented; they enter the embedding as explicit function
  parameters, except for the parts of their behaviour that the control
  flow of `lib.rs` depends on (base64 decoding, the length gate of the
  `rsa` crate's PKCS#1 v1.5 `verify`), which are embedded concretely.
-/

/-- Unicode `White_Space` test.  This is the predicate behind Rust's
`char::is_whitespace` (used by `str::trim` / `str::trim_end`) and the
regex crate's class `\s`, which both match exactly the `White_Space`
code points. -/
def isWhitespaceRust (c : Char) : Bool :=
  let n := c.toNat
  n == 0x20 || (Nat.ble 0x9 n && Nat.ble n 0xD) || n == 0x85 || n == 0xA0 ||
  n == 0x1680 || (Nat.ble 0x2000 n && Nat.ble n 0x200A) || n == 0x2028 ||
  n == 0x2029 || n == 0x202F || n == 0x205F || n == 0x3000

/-- First pass of line-ending normalization in `parse_email_internal` and
`canonicalize_body_simple`: Rust `s.replace("\r\n", "\n")` (leftmost,
non-overlapping occurrences). -/
def crlfToLf : List Char → List Char
  | [] => []
  | [c] => [c]
  | c :: d :: rest =>
    if c = '\r' ∧ d = '\n' then '\n' :: crlfToLf rest
    else c :: crlfToLf (d :: rest)

/-- Second pass: Rust `s.replace('\r', "\n")`. -/
def crToLf (s : List Char) : List Char :=
  s.map fun c => if c = '\r' then '\n' else c

/-- Third pass: Rust `s.replace('\n', "\r\n")`. -/
def lfToCrlf : List Char → List Char
  | [] => []
  | c :: rest => if c = '\n' then '\r' :: '\n' :: lfToCrlf rest else c :: lfToCrlf rest

/-- Line-ending normalization to CRLF as written in `parse_email_internal`
(src/wasm/parser/src/lib.rs lines 49-52) and in `canonicalize_body_simple`
(lines 170-173): three successive `replace` calls. -/
def normalizeCrlf (s : List Char) : List Char :=
  lfToCrlf (crToLf (crlfToLf s))

/-- A string whose line endings are already all CRLF: every `'\r'` is
immediately followed by `'\n'`, and every `'\n'` is immediately preceded
by `'\r'`. -/
def crlfPure : List Char → Bool
  | [] => true
  | [c] => if c = '\r' ∨ c = '\n' then false else true
  | c :: d :: rest =>
    if c = '\r' then (if d = '\n' then crlfPure rest else false)
    else if c = '\n' then false
    else crlfPure (d :: rest)

/-- Split on `'\n'`, keeping empty pieces: a string with `n` newline
characters yields `n + 1` pieces, none containing `'\n'`. -/
def splitNl : List Char → List (List Char)
  | [] => [[]]
  | c :: rest =>
    if c = '\n' then [] :: splitNl rest
    else
      match splitNl rest with
      | p :: ps => (c :: p) :: ps
      | [] => [[c]]

/-- Drop one trailing `'\r'` if present (the `\r` of a `\r\n` terminator). -/
def stripTrailCr (l : List Char) : List Char :=
  if l.getLast? = some '\r' then l.dropLast else l

/-- Rust `str::lines()`: split at `'\n'`; a final piece that is empty (the
string ended in `'\n'`) is not produced; every piece that was terminated by
`'\n'` additionally loses a trailing `'\r'`; a final unterminated piece is
kept verbatim. -/
def rustLines (s : List Char) : List (List Char) :=
  let ps := splitNl s
  match ps.getLast? with
  | some [] => ps.dropLast.map stripTrailCr
  | some lastPiece => ps.dropLast.map stripTrailCr ++ [lastPiece]
  | none => []

/-- Rust `str::trim_start()`. -/
def trimStartRust (l : List Char) : List Char :=
  l.dropWhile isWhitespaceRust

/-- Rust `str::trim_end()`. -/
def trimEndRust (l : List Char) : List Char :=
  (l.reverse.dropWhile isWhitespaceRust).reverse

/-- Rust `str::trim()`. -/
def trimRust (l : List Char) : List Char :=
  trimEndRust (trimStartRust l)

/-- Rust `Vec::join(sep)`: concatenate the pieces with `sep` between
consecutive pieces. -/
def joinSep (sep : List Char) : List (List Char) → List Char
  | [] => []
  | [p] => p
  | p :: q :: ps => p ++ sep ++ joinSep sep (q :: ps)

/-- DKIM simple body canonicalization, `canonicalize_body_simple`
(src/wasm/parser/src/lib.rs lines 168-189): normalize line endings to CRLF,
trim trailing whitespace from each `lines()` piece, rejoin with CRLF, and
append a final CRLF if the result does not already end in one. -/
def canonicalize_body_simple (body : List Char) : List Char :=
  let canonical := normalizeCrlf body
  let ls := (rustLines canonical).map trimEndRust
  let joined := joinSep ['\r', '\n'] ls
  if (['\r', '\n'] : List Char).isSuffixOf joined then joined
  else joined ++ ['\r', '\n']

/-- Leftmost split of a string at the first occurrence of the header/body
separator `"\r\n\r\n"`: Rust `normalized.splitn(2, "\r\n\r\n")`.  Returns
`some (before, after)` when the separator occurs, `none` otherwise. -/
def splitSep : List Char → Option (List Char × List Char)
  | '\r' :: '\n' :: '\r' :: '\n' :: rest => some ([], rest)
  | c :: rest =>
    match splitSep rest with
    | some (pre, post) => some (c :: pre, post)
    | none => none
  | [] => none

/-- Prepend a character to the first piece of a piece list. -/
def consHead (c : Char) : List (List Char) → List (List Char)
  | [] => [[c]]
  | p :: ps => (c :: p) :: ps

/-- The regex split `Regex::new(r"\r\n(?=[^\s])").split(header_section)` of
`parse_headers`: split at every CRLF that is immediately followed by a
non-whitespace character (the CRLF is removed); a CRLF followed by
whitespace (a folded continuation line) stays inside the current piece, as
does a CRLF at the very end of the string. -/
def splitFields : List Char → List (List Char)
  | [] => [[]]
  | [c] => [[c]]
  | [c, d] => [[c, d]]
  | c :: d :: e :: rest =>
    if c = '\r' ∧ d = '\n' then
      if isWhitespaceRust e then consHead '\r' (consHead '\n' (splitFields (e :: rest)))
      else [] :: splitFields (e :: rest)
    else consHead c (splitFields (d :: e :: rest))

/-- The header map of `ParsedEmail`: Rust `HashMap<String, Vec<String>>`,
modelled as an association list (the hash order of keys is irrelevant to the
source's observable behaviour; per-key value order is what matters). -/
abbrev HeaderMap := List (List Char × List (List Char))

/-- Rust `headers.entry(name).or_insert_with(Vec::new).push(value)`:
append `v` to the vector stored under `k`, creating the entry if absent. -/
def insertHeader (m : HeaderMap) (k : List Char) (v : List Char) : HeaderMap :=
  match m with
  | [] => [(k, [v])]
  | (q, vs) :: rest => if q = k then (q, vs ++ [v]) :: rest else (q, vs) :: insertHeader rest k v

/-- Rust `headers.get(name)`. -/
def findHeader (m : HeaderMap) (nm : List Char) : Option (List (List Char)) :=
  match m with
  | [] => none
  | (q, vs) :: rest => if q = nm then some vs else findHeader rest nm

/-- ASCII lowercasing of a header name, Rust `str::to_lowercase` (the source
only ever lowercases ASCII header names; non-ASCII characters are kept). -/
def lowerList (l : List Char) : List Char :=
  l.map Char.toLower

/-- The header name computed by `parse_headers` for a field: the text before
the first colon, trimmed and lowercased
(`header_line[..colon_pos].trim().to_lowercase()`). -/
def fieldNameOf (f : List Char) : List Char :=
  lowerList (trimRust (f.takeWhile fun c => c ≠ ':'))

/-- The loop body of `parse_headers` (src/wasm/parser/src/lib.rs lines
86-99): skip blank pieces, fail on a piece without a colon, otherwise insert
the full piece text plus CRLF under the lowercased trimmed name. -/
def processFields (acc : HeaderMap) : List (List Char) → Except (List Char) HeaderMap
  | [] => .ok acc
  | f :: fs =>
    if trimRust f = [] then processFields acc fs
    else if ':' ∈ f then
      processFields (insertHeader acc (fieldNameOf f) (f ++ ['\r', '\n'])) fs
    else .error ("Invalid header line: ".toList ++ f)

/-- Rust `parse_headers` (src/wasm/parser/src/lib.rs lines 77-102). -/
def parse_headers (header_section : List Char) : Except (List Char) HeaderMap :=
  processFields [] (splitFields header_section)

/-- The header block that `parse_email_internal` passes to `parse_headers`:
the part of the normalized message before the first `"\r\n\r\n"`, or the
whole normalized message when no separator occurs. -/
def headerSection (n : List Char) : List Char :=
  match splitSep n with
  | some (h, _) => h
  | none => n

/-- Result of `parse_email_internal`: headers plus body. -/
structure ParsedEmail where
  headers : HeaderMap
  body : List Char
deriving DecidableEq, Repr

/-- Rust `parse_email_internal` (src/wasm/parser/src/lib.rs lines 47-74):
normalize line endings, split at the first blank line, require a trailing
CRLF when there is no blank line, and parse the header block. -/
def parse_email_internal (raw_message : List Char) : Except (List Char) ParsedEmail :=
  match splitSep (normalizeCrlf raw_message) with
  | some (headerSec, body) =>
    match parse_headers headerSec with
    | .ok hm => .ok ⟨hm, body⟩
    | .error e => .error e
  | none =>
    if (['\r', '\n'] : List Char).isSuffixOf (normalizeCrlf raw_message) then
      match parse_headers (normalizeCrlf raw_message) with
      | .ok hm => .ok ⟨hm, []⟩
      | .error e => .error e
    else .error "Headers do not end with CRLF".toList

/-- Test for the error branch of an `Except`. -/
def isErr : Except ε α → Bool
  | .error _ => true
  | .ok _ => false

/-- The occurrences of header `nm` among the split field pieces `fs`, in
order, each taken as the full field text plus CRLF — the reference value
lists for claims C6 and C7. -/
def headerOccurrences (nm : List Char) (fs : List (List Char)) : List (List Char) :=
  fs.filterMap fun f =>
    if trimRust f ≠ [] ∧ fieldNameOf f = nm then some (f ++ ['\r', '\n']) else none

/-- What a `HashMap` lookup of `nm` should produce: `none` when `nm` never
occurs, otherwise the ordered occurrence list. -/
def occurrencesLookup (nm : List Char) (fs : List (List Char)) : Option (List (List Char)) :=
  if headerOccurrences nm fs = [] then none else some (headerOccurrences nm fs)

/-- Leftmost capture of the regex `<([^>]+)>` from `extract_email_address`:
scan left to right; at each `'<'`, greedily take the following non-`'>'`
characters; the attempt succeeds when at least one character was taken and
a `'>'` follows.  On failure the scan resumes at the next position. -/
def firstAngleCapture : List Char → Option (List Char)
  | [] => none
  | c :: rest =>
    if c = '<' then
      if (rest.takeWhile fun x => x ≠ '>') ≠ [] ∧
          rest.drop (rest.takeWhile fun x => x ≠ '>').length ≠ [] then
        some (rest.takeWhile fun x => x ≠ '>')
      else firstAngleCapture rest
    else firstAngleCapture rest

/-- ASCII word character, the `\w` class relevant to the ASCII-only pattern
of `extract_email_address` (word boundaries `\b`; non-ASCII characters are
treated as non-word here). -/
def isWordC (c : Char) : Bool :=
  c.isAlphanum || c = '_'

/-- The regex class `[a-zA-Z0-9._%+-]` (local part of the bare address
pattern). -/
def isLocalC (c : Char) : Bool :=
  c.isAlphanum || c = '.' || c = '_' || c = '%' || c = '+' || c = '-'

/-- The regex class `[a-zA-Z0-9.-]` (domain part). -/
def isDomC (c : Char) : Bool :=
  c.isAlphanum || c = '.' || c = '-'

/-- All ways to split a list at a `'.'`: pairs `(before, after)` for each
dot, in left-to-right order. -/
def dotSplits : List Char → List (List Char × List Char)
  | [] => []
  | c :: rest =>
    (if c = '.' then [(([] : List Char), rest)] else []) ++
      (dotSplits rest).map fun pr => (c :: pr.1, pr.2)

/-- First successful application of `f` over a candidate list. -/
def firstSome (f : α → Option β) : List α → Option β
  | [] => none
  | a :: rest =>
    match f a with
    | some b => some b
    | none => firstSome f rest

/-- Word-boundary test after the matched TLD run: the next character (first
the unconsumed domain-class characters, then the rest of the string) must
not be a word character. -/
def boundaryAfterOk (u2rest after : List Char) : Bool :=
  match u2rest with
  | x :: _ => !isWordC x
  | [] =>
    match after with
    | x :: _ => !isWordC x
    | [] => true

/-- One backtracking attempt of `B+ \. C{2,} \b` at a given dot split
`(u1, u2)` of the greedy domain-class run: `u1` is `B+` (nonempty), the dot
follows, then the maximal letter run of `u2` must have length at least two
and be followed by a non-word character or the end. -/
def tryDot (t after : List Char) (pr : List Char × List Char) : Option (List Char) :=
  if pr.1 = [] then none
  else
    let w := pr.2.takeWhile Char.isAlpha
    if 2 ≤ w.length ∧ boundaryAfterOk (pr.2.drop w.length) after then
      some (t ++ '@' :: pr.1 ++ '.' :: w)
    else none

/-- Match attempt of the bare-address regex
`\b([a-zA-Z0-9._%+-]+@[a-zA-Z0-9.-]+\.[a-zA-Z]{2,})\b` starting exactly at
the head of `l`: greedy `A+`, a literal `'@'`, then the greedy domain run
backtracks over its dots from the rightmost. -/
def matchBareHere (l : List Char) : Option (List Char) :=
  let t := l.takeWhile isLocalC
  if t = [] then none
  else
    match l.drop t.length with
    | '@' :: r =>
      let u := r.takeWhile isDomC
      let after := r.drop u.length
      firstSome (tryDot t after) (dotSplits u).reverse
    | _ => none

/-- Leftmost-first scan of the bare-address regex: try every position whose
word-boundary condition holds (`prevWord` is the wordness of the previous
character; the start of the string counts as non-word). -/
def bareEmailAux (prevWord : Bool) : List Char → Option (List Char)
  | [] => none
  | c :: rest =>
    match (if prevWord ≠ isWordC c then matchBareHere (c :: rest) else none) with
    | some mtch => some mtch
    | none => bareEmailAux (isWordC c) rest

/-- The bare-address regex search of `extract_email_address`. -/
def bareEmailMatch (s : List Char) : Option (List Char) :=
  bareEmailAux false s

/-- Rust `extract_email_address` (src/wasm/parser/src/lib.rs lines 112-134):
first the angle-bracket pattern, then the bare-address pattern, otherwise an
error. -/
def extract_email_address (header_value : List Char) : Except (List Char) (List Char) :=
  match firstAngleCapture header_value with
  | some email => .ok email
  | none =>
    match bareEmailMatch header_value with
    | some email => .ok email
    | none => .error "No email address found".toList

/-- A non-empty angle-bracket pair somewhere in the string: a `'<'`, at
least one following non-`'>'` character, then a `'>'`. -/
def containsAnglePair (s : List Char) : Prop :=
  ∃ pre mid post, s = pre ++ '<' :: (mid ++ '>' :: post) ∧ mid ≠ [] ∧ ∀ x ∈ mid, x ≠ '>'

/-- Text in which every `'<'` is immediately followed by `'>'`: only empty
angle-bracket pairs, which the capture `<([^>]+)>` cannot match.  This is
exactly the material that can precede the first non-empty pair. -/
def emptyAngleOnly : List Char → Bool
  | [] => true
  | [c] => if c = '<' then false else true
  | c :: d :: rest =>
    if c = '<' then (if d = '>' then emptyAngleOnly rest else false)
    else emptyAngleOnly (d :: rest)

/-- Value of a standard-alphabet base64 symbol. -/
def b64val (c : Char) : Option Nat :=
  if 'A' ≤ c ∧ c ≤ 'Z' then some (c.toNat - 65)
  else if 'a' ≤ c ∧ c ≤ 'z' then some (c.toNat - 97 + 26)
  else if '0' ≤ c ∧ c ≤ '9' then some (c.toNat - 48 + 52)
  else if c = '+' then some 62
  else if c = '/' then some 63
  else none

/-- Block-wise decoding for `base64::engine::general_purpose::STANDARD`:
canonical padding is required (length must be a multiple of four, `'='` only
at the end), and non-zero trailing bits in the final chunk are rejected
(`decode_allow_trailing_bits` is false for the STANDARD engine). -/
def b64decodeBlocks : List Char → Option (List Nat)
  | [] => some []
  | a :: b :: c :: d :: rest =>
    match b64val a, b64val b with
    | some va, some vb =>
      if c = '=' then
        if d = '=' ∧ rest = [] then
          if vb % 16 = 0 then some [va * 4 + vb / 16] else none
        else none
      else
        match b64val c with
        | some vc =>
          if d = '=' then
            if rest = [] then
              if vc % 4 = 0 then some [va * 4 + vb / 16, vb % 16 * 16 + vc / 4] else none
            else none
          else
            match b64val d with
            | some vd =>
              match b64decodeBlocks rest with
              | some bytes =>
                some ((va * 4 + vb / 16) :: (vb % 16 * 16 + vc / 4) :: (vc % 4 * 64 + vd) :: bytes)
              | none => none
            | none => none
        | none => none
    | _, _ => none
  | _ => none

/-- Base64 decoding with the STANDARD engine, as called by `verify_ed25519`,
`verify_rsa_sha256` and `base64_decode`. -/
def b64decode (s : List Char) : Option (List Nat) :=
  b64decodeBlocks s

/-- The standard base64 alphabet. -/
def b64chars : List Char :=
  "ABCDEFGHIJKLMNOPQRSTUVWXYZabcdefghijklmnopqrstuvwxyz0123456789+/".toList

/-- Symbol for a six-bit value. -/
def b64char (n : Nat) : Char :=
  b64chars.getD n 'A'

/-- Base64 encoding with the STANDARD engine (padded), as called by
`sha256_hash`, `compute_body_hash` and `base64_encode`. -/
def b64encode : List Nat → List Char
  | [] => []
  | [x] => [b64char (x / 4), b64char (x % 4 * 16), '=', '=']
  | [x, y] => [b64char (x / 4), b64char (x % 4 * 16 + y / 16), b64char (y % 16 * 4), '=']
  | x :: y :: z :: rest =>
    b64char (x / 4) :: b64char (x % 4 * 16 + y / 16) ::
      b64char (y % 16 * 4 + z / 64) :: b64char (z % 64) :: b64encode rest

/-- Rust `sha256_hash` (src/wasm/crypto/src/lib.rs lines 35-40): SHA-256 of
the input, base64-encoded.  The SHA-256 compression itself is the `sha2`
crate; it enters the embedding as the explicit parameter `sha`, which both
this function and `compute_body_hash` share. -/
def sha256_hash (sha : List Nat → List Nat) (data : List Nat) : List Char :=
  b64encode (sha data)

/-- Rust `compute_body_hash` (src/wasm/crypto/src/lib.rs lines 167-178):
hash `body[..length]` when `0 < length < body.len()`, the whole body
otherwise. -/
def compute_body_hash (sha : List Nat → List Nat) (body : List Nat) (length : Nat) : List Char :=
  b64encode (sha (if 0 < length ∧ length < body.length then body.take length else body))

/-- Abstract model of the `rsa` crate's `RsaPublicKey` as produced by
`RsaPublicKey::from_pkcs1_der`: its byte size (`pub_key.size()`, the modulus
length in bytes) and the PKCS#1 v1.5 padding/modexp comparison on a hash
and a signature of the correct length. -/
structure RsaKeyModel where
  size : Nat
  core : List Nat → List Nat → Bool

/-- The `rsa` crate's `PublicKey::verify` with `PaddingScheme::PKCS1v15Sign`:
it returns `Err(Error::Verification)` when the signature length differs from
the modulus size, before any padding comparison; otherwise the abstract
padding/modexp comparison decides between `Ok(())` and
`Err(Error::Verification)`. -/
def rsaCrateVerify (k : RsaKeyModel) (hash sig : List Nat) : Except Unit Unit :=
  if sig.length ≠ k.size then .error ()
  else if k.core hash sig then .ok () else .error ()

/-- Rust `verify_ed25519` (src/wasm/crypto/src/lib.rs lines 81-115).  The
`ed25519_dalek` primitives enter as parameters: `edKeyValid` models
`VerifyingKey::from_bytes` succeeding on a 32-byte array, `edVerify` the
curve verification `verifying_key.verify(message, &signature)`
(`Signature::from_bytes` on a 64-byte array never fails). -/
def verify_ed25519 (edKeyValid : List Nat → Bool)
    (edVerify : List Nat → List Nat → List Nat → Bool)
    (public_key : List Char) (message : List Nat) (signature : List Char) :
    Except (List Char) Bool :=
  match b64decode public_key with
  | none => .error "Invalid public key".toList
  | some pkb =>
    match b64decode signature with
    | none => .error "Invalid signature".toList
    | some sgb =>
      if pkb.length = 32 then
        if edKeyValid pkb then
          if sgb.length = 64 then .ok (edVerify pkb message sgb)
          else .error "Signature must be 64 bytes".toList
        else .error "Invalid Ed25519 key".toList
      else .error "Public key must be 32 bytes".toList

/-- Rust `verify_rsa_sha256` (src/wasm/crypto/src/lib.rs lines 127-156).
`parseDer` models `RsaPublicKey::from_pkcs1_der`; the final `match` maps
both the crate's length rejection and a padding mismatch to `Ok(false)`. -/
def verify_rsa_sha256 (sha : List Nat → List Nat)
    (parseDer : List Nat → Option RsaKeyModel)
    (public_key_der : List Char) (message : List Nat) (signature : List Char) :
    Except (List Char) Bool :=
  match b64decode public_key_der with
  | none => .error "Invalid public key".toList
  | some pkb =>
    match b64decode signature with
    | none => .error "Invalid signature".toList
    | some sgb =>
      match parseDer pkb with
      | none => .error "Invalid RSA key".toList
      | some k =>
        .ok (match rsaCrateVerify k (sha message) sgb with
          | .ok _ => true
          | .error _ => false)

/-- A PKCS#1 DER encoding of a toy RSA public key
(`SEQUENCE (INTEGER 0x0CA1, INTEGER 0x11)` — modulus 3233, exponent 17, a
two-byte modulus), used to instantiate the abstract DER parser in the C1
counterexample. -/
def sampleDer : List Nat :=
  [0x30, 0x08, 0x02, 0x02, 0x0C, 0xA1, 0x02, 0x01, 0x11]

/-- Model of the key `from_pkcs1_der` yields for `sampleDer`: two-byte
modulus; the padding comparison is irrelevant to the counterexample and is
taken to accept. -/
def sampleRsaKey : RsaKeyModel :=
  ⟨2, fun _ _ => true⟩

/-- A DER parser instantiation accepting exactly `sampleDer` (the real
parser accepts some well-formed DER key; which one is irrelevant). -/
def parseDerSample (b : List Nat) : Option RsaKeyModel :=
  if b = sampleDer then some sampleRsaKey else none

/-- A degenerate stand-in for the SHA-256 parameter where the digest value
is irrelevant. -/
def shaZero (_ : List Nat) : List Nat :=
  []

theorem crlfToLf_cons_ne (c : Char) (l : List Char) (h : c ≠ '\r') :
    crlfToLf (c :: l) = c :: crlfToLf l := by
  cases l with
  | nil => rfl
  | cons d rest =>
    simp only [crlfToLf]
    rw [if_neg]
    rintro ⟨hc, -⟩
    exact h hc

theorem crlfToLf_crlf (l : List Char) :
    crlfToLf ('\r' :: '\n' :: l) = '\n' :: crlfToLf l := by
  simp [crlfToLf]

theorem crToLf_cons (c : Char) (l : List Char) :
    crToLf (c :: l) = (if c = '\r' then '\n' else c) :: crToLf l := by
  simp [crToLf]

theorem lfToCrlf_cons_ne (c : Char) (l : List Char) (h : c ≠ '\n') :
    lfToCrlf (c :: l) = c :: lfToCrlf l := by
  simp [lfToCrlf, h]

theorem lfToCrlf_lf (l : List Char) :
    lfToCrlf ('\n' :: l) = '\r' :: '\n' :: lfToCrlf l := by
  simp [lfToCrlf]

theorem crToLf_no_cr (s : List Char) : '\r' ∉ crToLf s := by
  intro h
  obtain ⟨c, -, hc⟩ := List.mem_map.mp h
  by_cases h' : c = '\r' <;> simp [h'] at hc

theorem crToLf_of_no_cr (s : List Char) (h : '\r' ∉ s) : crToLf s = s := by
  induction s with
  | nil => rfl
  | cons c rest ih =>
    rw [List.mem_cons] at h
    push_neg at h
    rw [crToLf_cons, if_neg (fun hc => h.1 hc.symm), ih h.2]

theorem crlfToLf_lfToCrlf (s : List Char) (h : '\r' ∉ s) :
    crlfToLf (lfToCrlf s) = s := by
  induction s with
  | cons c rest ih =>
    rw [List.mem_cons] at h
    push_neg at h
    have hc : c ≠ '\r' := fun hc => h.1 hc.symm
    by_cases hn : c = '\n'
    · subst hn
      rw [lfToCrlf_lf, crlfToLf_crlf, ih h.2]
    · rw [lfToCrlf_cons_ne c rest hn, crlfToLf_cons_ne c _ hc, ih h.2]
  | nil => rfl

/-- Pushing a non-CR non-LF character through the whole normalization. -/
theorem normalizeCrlf_cons_ne (c : Char) (l : List Char) (hr : c ≠ '\r') (hn : c ≠ '\n') :
    normalizeCrlf (c :: l) = c :: normalizeCrlf l := by
  unfold normalizeCrlf
  rw [crlfToLf_cons_ne c l hr, crToLf_cons, if_neg hr, lfToCrlf_cons_ne c _ hn]

/-- Pushing a CRLF pair through the whole normalization. -/
theorem normalizeCrlf_crlf (l : List Char) :
    normalizeCrlf ('\r' :: '\n' :: l) = '\r' :: '\n' :: normalizeCrlf l := by
  unfold normalizeCrlf
  rw [crlfToLf_crlf, crToLf_cons, if_neg (by decide : ('\n' : Char) ≠ '\r'), lfToCrlf_lf]

theorem crlfPure_normalizeCrlf : ∀ s : List Char, crlfPure s = true → normalizeCrlf s = s
  | [], _ => rfl
  | [c], h => by
    simp only [crlfPure] at h
    split at h
    · cases h
    · rename_i hc
      push_neg at hc
      rw [normalizeCrlf_cons_ne c [] hc.1 hc.2]
      rfl
  | c :: d :: rest, h => by
    simp only [crlfPure] at h
    split at h
    · rename_i hc
      subst hc
      split at h
      · rename_i hd
        subst hd
        rw [normalizeCrlf_crlf, crlfPure_normalizeCrlf rest h]
      · cases h
    · rename_i hc
      split at h
      · cases h
      · rename_i hn
        rw [normalizeCrlf_cons_ne c _ hc hn, crlfPure_normalizeCrlf (d :: rest) h]

/-- Claim C9: line-ending normalization (CRLF, bare CR and bare LF all mapped
to CRLF) is idempotent, and a message whose line endings are already all CRLF
is left unchanged. -/
theorem normalize_idempotent (s : List Char) :
    normalizeCrlf (normalizeCrlf s) = normalizeCrlf s ∧
    (crlfPure s = true → normalizeCrlf s = s) := by
  constructor
  · show normalizeCrlf (lfToCrlf (crToLf (crlfToLf s))) = normalizeCrlf s
    have hnocr : '\r' ∉ crToLf (crlfToLf s) := crToLf_no_cr _
    unfold normalizeCrlf
    rw [crlfToLf_lfToCrlf _ hnocr, crToLf_of_no_cr _ hnocr]
  · exact crlfPure_normalizeCrlf s

/-- Witness for C9 at concrete inputs: a mixed-endings string, and an
already-CRLF string left unchanged. -/
theorem normalize_idempotent_witness :
    normalizeCrlf (normalizeCrlf "a\rb\nc\r\nd".toList) = normalizeCrlf "a\rb\nc\r\nd".toList ∧
    normalizeCrlf "x\r\ny\r\n".toList = "x\r\ny\r\n".toList :=
  ⟨(normalize_idempotent "a\rb\nc\r\nd".toList).1,
   (normalize_idempotent "x\r\ny\r\n".toList).2 (by decide)⟩


/-- Claim C3 (code bug evaluation): `canonicalize_body_simple` does not remove
trailing blank lines.  On `"a\n\n\n"` the code produces `"a\r\n\r\n"` — a
trailing blank line survives — instead of the `"a\r\n"` required by DKIM
simple canonicalization; the output also does not end in exactly one CRLF. -/
theorem canonicalize_trailing_blank_eval :
    canonicalize_body_simple "a\n\n\n".toList = "a\r\n\r\n".toList ∧
    canonicalize_body_simple "a\n\n\n".toList ≠ "a\r\n".toList ∧
    canonicalize_body_simple " \n \n \n".toList = "\r\n\r\n".toList := by
  refine ⟨by decide, by decide, by decide⟩

/-- Claim C4 (code bug evaluation): `canonicalize_body_simple` is not
idempotent.  Each application removes exactly one trailing blank line, so on
`"a\n\n\n"` one application yields `"a\r\n\r\n"` and a second application
yields `"a\r\n"`. -/
theorem canonicalize_not_idempotent_eval :
    canonicalize_body_simple (canonicalize_body_simple "a\n\n\n".toList) ≠
      canonicalize_body_simple "a\n\n\n".toList := by
  decide


theorem consHead_ne_nil (c : Char) (X : List (List Char)) : consHead c X ≠ [] := by
  cases X <;> simp [consHead]

theorem splitFields_ne_nil (s : List Char) : splitFields s ≠ [] := by
  induction s using splitFields.induct with
  | case1 => simp [splitFields]
  | case2 => simp [splitFields]
  | case3 => simp [splitFields]
  | case4 c d e rest h1 h2 ih =>
    simp only [splitFields, if_pos h1, if_pos h2]
    exact consHead_ne_nil _ _
  | case5 c d e rest h1 h2 ih =>
    simp [splitFields, if_pos h1, if_neg h2]
  | case6 c d e rest h1 ih =>
    simp only [splitFields, if_neg h1]
    exact consHead_ne_nil _ _

theorem joinSep_consHead (sep : List Char) (a : Char) (X : List (List Char)) (h : X ≠ []) :
    joinSep sep (consHead a X) = a :: joinSep sep X := by
  match X with
  | [] => exact absurd rfl h
  | [p] => simp [consHead, joinSep]
  | p :: q :: ps => simp [consHead, joinSep]

theorem joinSep_nil_cons (sep : List Char) (X : List (List Char)) (h : X ≠ []) :
    joinSep sep ([] :: X) = sep ++ joinSep sep X := by
  match X with
  | [] => exact absurd rfl h
  | p :: ps => simp [joinSep]

/-- The regex split of a header block loses exactly the CRLF separators at
the split points: rejoining the pieces with CRLF reconstructs the block. -/
theorem joinSep_splitFields (s : List Char) :
    joinSep ['\r', '\n'] (splitFields s) = s := by
  induction s using splitFields.induct with
  | case1 => rfl
  | case2 => rfl
  | case3 => rfl
  | case4 c d e rest h1 h2 ih =>
    simp only [splitFields, if_pos h1, if_pos h2]
    obtain ⟨hc, hd⟩ := h1
    subst hc; subst hd
    rw [joinSep_consHead _ _ _ (consHead_ne_nil _ _),
        joinSep_consHead _ _ _ (splitFields_ne_nil _), ih]
  | case5 c d e rest h1 h2 ih =>
    simp only [splitFields, if_pos h1, if_neg h2]
    obtain ⟨hc, hd⟩ := h1
    subst hc; subst hd
    rw [joinSep_nil_cons _ _ (splitFields_ne_nil _), ih]
    rfl
  | case6 c d e rest h1 ih =>
    simp only [splitFields, if_neg h1]
    rw [joinSep_consHead _ _ _ (splitFields_ne_nil _), ih]

theorem findHeader_insertHeader (m : HeaderMap) (k v nm : List Char) :
    findHeader (insertHeader m k v) nm =
      if k = nm then some ((findHeader m nm).getD [] ++ [v]) else findHeader m nm := by
  induction m with
  | nil =>
    by_cases h : k = nm <;> simp [insertHeader, findHeader, h]
  | cons e rest ih =>
    obtain ⟨q, vs⟩ := e
    by_cases hqk : q = k
    · subst hqk
      by_cases hqnm : q = nm
      · subst hqnm
        simp [insertHeader, findHeader]
      · simp [insertHeader, findHeader, hqnm]
    · by_cases hqnm : q = nm
      · subst hqnm
        have hkq : ¬k = q := fun h => hqk h.symm
        simp [insertHeader, findHeader, hqk, hkq]
      · simp [insertHeader, findHeader, hqk, hqnm, ih]

theorem headerOccurrences_cons (nm f : List Char) (fs : List (List Char)) :
    headerOccurrences nm (f :: fs) =
      (if trimRust f ≠ [] ∧ fieldNameOf f = nm then [f ++ ['\r', '\n']] else []) ++
        headerOccurrences nm fs := by
  by_cases h : trimRust f ≠ [] ∧ fieldNameOf f = nm
  · simp [headerOccurrences, List.filterMap_cons, h]
  · simp [headerOccurrences, List.filterMap_cons, h]

theorem processFields_findHeader :
    ∀ (fs : List (List Char)) (acc out : HeaderMap), processFields acc fs = .ok out →
      ∀ nm : List Char,
        (∀ vs, findHeader acc nm = some vs →
          findHeader out nm = some (vs ++ headerOccurrences nm fs)) ∧
        (findHeader acc nm = none → findHeader out nm = occurrencesLookup nm fs)
  | [], acc, out, h, nm => by
    simp only [processFields] at h
    cases h
    constructor
    · intro vs hvs
      simp [headerOccurrences, hvs]
    · intro hnone
      simp [occurrencesLookup, headerOccurrences, hnone]
  | f :: fs, acc, out, h, nm => by
    simp only [processFields] at h
    split at h
    · rename_i hblank
      have ih := processFields_findHeader fs acc out h nm
      have hcond : ¬(trimRust f ≠ [] ∧ fieldNameOf f = nm) := fun hc => hc.1 hblank
      rw [show headerOccurrences nm (f :: fs) = headerOccurrences nm fs by
        rw [headerOccurrences_cons, if_neg hcond]; rfl]
      rw [show occurrencesLookup nm (f :: fs) = occurrencesLookup nm fs by
        unfold occurrencesLookup
        rw [headerOccurrences_cons, if_neg hcond]; rfl]
      exact ih
    · split at h
      · rename_i hblank hcolon
        have ih := processFields_findHeader fs
          (insertHeader acc (fieldNameOf f) (f ++ ['\r', '\n'])) out h nm
        by_cases hk : fieldNameOf f = nm
        · have hcond : trimRust f ≠ [] ∧ fieldNameOf f = nm := ⟨hblank, hk⟩
          have hocc : headerOccurrences nm (f :: fs) =
              (f ++ ['\r', '\n']) :: headerOccurrences nm fs := by
            rw [headerOccurrences_cons, if_pos hcond]; rfl
          have hins := findHeader_insertHeader acc (fieldNameOf f) (f ++ ['\r', '\n']) nm
          rw [if_pos hk] at hins
          have hout := (ih.1 _ hins)
          constructor
          · intro vs hvs
            rw [hvs] at hout
            rw [hout, hocc]
            simp
          · intro hnone
            rw [hnone] at hout
            rw [hout]
            unfold occurrencesLookup
            rw [hocc, if_neg (by simp)]
            simp
        · have hcond : ¬(trimRust f ≠ [] ∧ fieldNameOf f = nm) := fun hc => hk hc.2
          have hins := findHeader_insertHeader acc (fieldNameOf f) (f ++ ['\r', '\n']) nm
          rw [if_neg hk] at hins
          rw [show headerOccurrences nm (f :: fs) = headerOccurrences nm fs by
            rw [headerOccurrences_cons, if_neg hcond]; rfl]
          rw [show occurrencesLookup nm (f :: fs) = occurrencesLookup nm fs by
            unfold occurrencesLookup
            rw [headerOccurrences_cons, if_neg hcond]; rfl]
          constructor
          · intro vs hvs
            exact ih.1 vs (hins.trans hvs)
          · intro hnone
            exact ih.2 (hins.trans hnone)
      · cases h

theorem processFields_isErr :
    ∀ (fs : List (List Char)) (acc : HeaderMap),
      isErr (processFields acc fs) = true ↔ ∃ f ∈ fs, trimRust f ≠ [] ∧ ':' ∉ f
  | [], acc => by simp [processFields, isErr]
  | f :: fs, acc => by
    simp only [processFields]
    split
    · rename_i hblank
      rw [processFields_isErr fs acc]
      constructor
      · rintro ⟨g, hg, hgood⟩
        exact ⟨g, List.mem_cons_of_mem f hg, hgood⟩
      · rintro ⟨g, hg, hgood⟩
        rcases List.mem_cons.mp hg with hgf | hgfs
        · subst hgf
          exact absurd hblank hgood.1
        · exact ⟨g, hgfs, hgood⟩
    · split
      · rename_i hblank hcolon
        rw [processFields_isErr fs _]
        constructor
        · rintro ⟨g, hg, hgood⟩
          exact ⟨g, List.mem_cons_of_mem f hg, hgood⟩
        · rintro ⟨g, hg, hgood⟩
          rcases List.mem_cons.mp hg with hgf | hgfs
          · subst hgf
            exact absurd hcolon hgood.2
          · exact ⟨g, hgfs, hgood⟩
      · rename_i hblank hcolon
        simp only [isErr, true_iff]
        exact ⟨f, List.mem_cons_self f fs, hblank, hcolon⟩

/-- Claim C5: `parse_email_internal` fails exactly in two cases — when the
normalized message has no double-CRLF separator and does not end in CRLF,
and when some non-blank header field piece contains no colon; every other
input parses successfully. -/
theorem parse_email_error_characterization (m : List Char) :
    isErr (parse_email_internal m) = true ↔
      (splitSep (normalizeCrlf m) = none ∧
        (['\r', '\n'] : List Char).isSuffixOf (normalizeCrlf m) = false) ∨
      ∃ f ∈ splitFields (headerSection (normalizeCrlf m)), trimRust f ≠ [] ∧ ':' ∉ f := by
  unfold parse_email_internal headerSection
  cases hsep : splitSep (normalizeCrlf m) with
  | some pr =>
    obtain ⟨hs, b⟩ := pr
    cases hp : parse_headers hs with
    | ok hm =>
      have hnex : ¬∃ f ∈ splitFields hs, trimRust f ≠ [] ∧ ':' ∉ f := by
        intro he
        have h2 := (processFields_isErr (splitFields hs) []).mpr he
        have h3 : processFields [] (splitFields hs) = .ok hm := hp
        rw [h3] at h2
        cases h2
      simp [isErr, hsep, hp, hnex]
    | error e =>
      have hex : ∃ f ∈ splitFields hs, trimRust f ≠ [] ∧ ':' ∉ f := by
        apply (processFields_isErr (splitFields hs) []).mp
        have h3 : processFields [] (splitFields hs) = .error e := hp
        rw [h3]
        rfl
      simp [isErr, hsep, hp, hex]
  | none =>
    cases hsuf : (['\r', '\n'] : List Char).isSuffixOf (normalizeCrlf m) with
    | true =>
      cases hp : parse_headers (normalizeCrlf m) with
      | ok hm =>
        have hnex : ¬∃ f ∈ splitFields (normalizeCrlf m), trimRust f ≠ [] ∧ ':' ∉ f := by
          intro he
          have h2 := (processFields_isErr (splitFields (normalizeCrlf m)) []).mpr he
          have h3 : processFields [] (splitFields (normalizeCrlf m)) = .ok hm := hp
          rw [h3] at h2
          cases h2
        simp [isErr, hsep, hsuf, hp, hnex]
      | error e =>
        have hex : ∃ f ∈ splitFields (normalizeCrlf m), trimRust f ≠ [] ∧ ':' ∉ f := by
          apply (processFields_isErr (splitFields (normalizeCrlf m)) []).mp
          have h3 : processFields [] (splitFields (normalizeCrlf m)) = .error e := hp
          rw [h3]
          rfl
        simp [isErr, hsep, hsuf, hp, hex]
    | false =>
      simp [isErr, hsep, hsuf]

/-- Claim C7: in every successfully parsed message, the list of values the
header map stores under a (lowercased) name has exactly the occurrences of
that header among the message's split header fields, in order — `none`
exactly when the name never occurs. -/
theorem header_order_invariant (m : List Char) (p : ParsedEmail)
    (h : parse_email_internal m = .ok p) (nm : List Char) :
    findHeader p.headers nm =
      occurrencesLookup nm (splitFields (headerSection (normalizeCrlf m))) := by
  unfold parse_email_internal at h
  split at h
  · rename_i hs b hsep
    simp only [headerSection, hsep]
    split at h
    · rename_i hm hp
      injection h with h2
      subst h2
      have hpf : processFields [] (splitFields hs) = .ok hm := hp
      exact (processFields_findHeader (splitFields hs) [] hm hpf nm).2 rfl
    · exact absurd h (by simp)
  · rename_i hsep
    simp only [headerSection, hsep]
    split at h
    · split at h
      · rename_i hsuf hm hp
        injection h with h2
        subst h2
        have hpf : processFields [] (splitFields (normalizeCrlf m)) = .ok hm := hp
        exact (processFields_findHeader (splitFields (normalizeCrlf m)) [] hm hpf nm).2 rfl
      · exact absurd h (by simp)
    · exact absurd h (by simp)

/-- Witness for C7: a concrete message with a duplicated `From` header whose
two values appear in the map in occurrence order. -/
theorem header_order_invariant_witness :
    findHeader
        (⟨[("from".toList, ["From: x\r\n".toList, "From: y\r\n".toList]),
           ("subject".toList, ["Subject: t\r\n".toList])], "B".toList⟩ : ParsedEmail).headers
        "from".toList =
      occurrencesLookup "from".toList
        (splitFields (headerSection (normalizeCrlf "From: x\r\nSubject: t\r\nFrom: y\r\n\r\nB".toList))) :=
  header_order_invariant "From: x\r\nSubject: t\r\nFrom: y\r\n\r\nB".toList
    ⟨[("from".toList, ["From: x\r\n".toList, "From: y\r\n".toList]),
      ("subject".toList, ["Subject: t\r\n".toList])], "B".toList⟩ rfl "from".toList

/-- Shape of the values stored by a successful `parse_headers` run: every
value is a verbatim piece of the lookahead split plus one appended CRLF,
from a non-blank piece. -/
theorem processFields_value_shape (hsec : List Char) (hm : HeaderMap)
    (hp : processFields [] (splitFields hsec) = .ok hm) (nm : List Char)
    (vs : List (List Char)) (hfind : findHeader hm nm = some vs) :
    ∀ v ∈ vs, ∃ f ∈ splitFields hsec, v = f ++ ['\r', '\n'] ∧ trimRust f ≠ [] := by
  intro v hv
  have hlook := (processFields_findHeader (splitFields hsec) [] hm hp nm).2 rfl
  rw [hlook] at hfind
  unfold occurrencesLookup at hfind
  split at hfind
  · cases hfind
  · injection hfind with h3
    subst h3
    obtain ⟨f, hfmem, heq⟩ := List.mem_filterMap.mp hv
    split at heq
    · rename_i hcond
      injection heq with h4
      exact ⟨f, hfmem, h4.symm, hcond.1⟩
    · cases heq

theorem getLast_consHead (a : Char) (X : List (List Char)) (f : List Char)
    (hX : X ≠ []) (hf : (consHead a X).getLast? = some f) :
    ∃ g, X.getLast? = some g ∧ ∀ t : List Char, t <:+ g → t <:+ f := by
  match X with
  | [] => exact absurd rfl hX
  | [p] =>
    rw [show consHead a [p] = [a :: p] from rfl, List.getLast?_singleton] at hf
    injection hf with h1
    exact ⟨p, List.getLast?_singleton p, fun t ht => h1 ▸ ht.trans (List.suffix_cons a p)⟩
  | p :: q :: qs =>
    rw [show consHead a (p :: q :: qs) = (a :: p) :: q :: qs from rfl,
        List.getLast?_cons_cons] at hf
    exact ⟨f, by rw [List.getLast?_cons_cons]; exact hf, fun t ht => ht⟩

/-- A header block ending in CRLF keeps that CRLF inside the final piece of
the lookahead split: the final CRLF is never a split point because nothing
follows it. -/
theorem splitFields_getLast_suffix :
    ∀ s : List Char, ['\r', '\n'] <:+ s →
      ∀ f, (splitFields s).getLast? = some f → ['\r', '\n'] <:+ f := by
  intro s
  induction s using splitFields.induct with
  | case1 =>
    intro h f hf
    have := h.length_le
    simp at this
  | case2 c =>
    intro h f hf
    have := h.length_le
    simp at this
  | case3 c d =>
    intro h f hf
    have heq : (['\r', '\n'] : List Char) = [c, d] := h.eq_of_length rfl
    rw [show splitFields [c, d] = [[c, d]] from rfl, List.getLast?_singleton] at hf
    injection hf with h1
    rw [← h1, ← heq]
  | case4 c d e rest h1 h2 ih =>
    intro h f hf
    simp only [splitFields, if_pos h1, if_pos h2] at hf
    obtain ⟨hc, hd⟩ := h1
    subst hc; subst hd
    have hsuf : (['\r', '\n'] : List Char) <:+ e :: rest := by
      have s1 : (['\r', '\n'] : List Char) <:+ '\n' :: e :: rest := by
        rcases List.suffix_cons_iff.mp h with hh | hh
        · injection hh with a1 a2
          injection a2 with a3 a4
          exact absurd a4 (by simp)
        · exact hh
      rcases List.suffix_cons_iff.mp s1 with hh | hh
      · injection hh with a1 a2
        exact absurd a1 (by decide)
      · exact hh
    obtain ⟨g1, hg1, ht1⟩ := getLast_consHead '\r' _ f (consHead_ne_nil _ _) hf
    obtain ⟨g2, hg2, ht2⟩ := getLast_consHead '\n' _ g1 (splitFields_ne_nil _) hg1
    exact ht1 _ (ht2 _ (ih hsuf g2 hg2))
  | case5 c d e rest h1 h2 ih =>
    intro h f hf
    simp only [splitFields, if_pos h1, if_neg h2] at hf
    obtain ⟨hc, hd⟩ := h1
    subst hc; subst hd
    have hsuf : (['\r', '\n'] : List Char) <:+ e :: rest := by
      have s1 : (['\r', '\n'] : List Char) <:+ '\n' :: e :: rest := by
        rcases List.suffix_cons_iff.mp h with hh | hh
        · injection hh with a1 a2
          injection a2 with a3 a4
          exact absurd a4 (by simp)
        · exact hh
      rcases List.suffix_cons_iff.mp s1 with hh | hh
      · injection hh with a1 a2
        exact absurd a1 (by decide)
      · exact hh
    cases hX : splitFields (e :: rest) with
    | nil => exact absurd hX (splitFields_ne_nil _)
    | cons p ps =>
      rw [hX, List.getLast?_cons_cons] at hf
      refine ih hsuf f ?_
      rw [hX]
      cases ps with
      | nil => exact hf
      | cons q qs => rw [List.getLast?_cons_cons]; exact hf
  | case6 c d e rest h1 ih =>
    intro h f hf
    simp only [splitFields, if_neg h1] at hf
    have hsuf : (['\r', '\n'] : List Char) <:+ d :: e :: rest := by
      rcases List.suffix_cons_iff.mp h with hh | hh
      · injection hh with a1 a2
        injection a2 with a3 a4
        exact absurd a4 (by simp)
      · exact hh
    obtain ⟨g, hg, htr⟩ := getLast_consHead c _ f (splitFields_ne_nil _) hf
    exact htr _ (ih hsuf g hg)

/-- Claim C6 (amended): in every successfully parsed message, each stored
header value is a verbatim piece of the lookahead split of the header block
plus exactly one appended CRLF, and the pieces rejoined with CRLF
reconstruct the block verbatim — so a folded field is stored as one entry
whose value is the entire original field text, embedded breaks included.
When the double-CRLF separator is present the block is the text before it,
so each value carries exactly its trailing CRLF; in a headers-only message
the block is the whole normalized message, whose terminating CRLF stays
inside the final split piece, so that field's stored value ends in two
CRLFs. -/
theorem folded_header_value_amended :
    (∀ (m hs b : List Char) (p : ParsedEmail),
      splitSep (normalizeCrlf m) = some (hs, b) → parse_email_internal m = .ok p →
      (∀ nm vs, findHeader p.headers nm = some vs →
        ∀ v ∈ vs, ∃ f ∈ splitFields hs, v = f ++ ['\r', '\n'] ∧ trimRust f ≠ []) ∧
      joinSep ['\r', '\n'] (splitFields hs) = hs) ∧
    (∀ (m : List Char) (p : ParsedEmail),
      splitSep (normalizeCrlf m) = none → parse_email_internal m = .ok p →
      (∀ nm vs, findHeader p.headers nm = some vs →
        ∀ v ∈ vs, ∃ f ∈ splitFields (normalizeCrlf m),
          v = f ++ ['\r', '\n'] ∧ trimRust f ≠ []) ∧
      joinSep ['\r', '\n'] (splitFields (normalizeCrlf m)) = normalizeCrlf m ∧
      (∀ f, (splitFields (normalizeCrlf m)).getLast? = some f →
        (['\r', '\n'] : List Char) <:+ f)) := by
  constructor
  · intro m hs b p hsep h
    unfold parse_email_internal at h
    split at h
    · rename_i hs2 b2 hsep2
      rw [hsep] at hsep2
      injection hsep2 with hpair
      injection hpair with hh hb
      subst hh
      subst hb
      split at h
      · rename_i hm hp
        injection h with h2
        subst h2
        exact ⟨fun nm vs hfind => processFields_value_shape hs hm hp nm vs hfind,
          joinSep_splitFields hs⟩
      · exact absurd h (by simp)
    · rename_i hsep2
      rw [hsep] at hsep2
      cases hsep2
  · intro m p hsep h
    unfold parse_email_internal at h
    split at h
    · rename_i hs2 b2 hsep2
      rw [hsep] at hsep2
      cases hsep2
    · rename_i hsep2
      split at h
      · rename_i hsuf
        split at h
        · rename_i hm hp
          injection h with h2
          subst h2
          refine ⟨fun nm vs hfind =>
              processFields_value_shape (normalizeCrlf m) hm hp nm vs hfind,
            joinSep_splitFields _, ?_⟩
          intro f hf
          exact splitFields_getLast_suffix (normalizeCrlf m)
            (List.isSuffixOf_iff_suffix.mp hsuf) f hf
        · exact absurd h (by simp)
      · exact absurd h (by simp)

/-- Counterexample for C6 as stated: in the headers-only message
`"From: a\r\n\tb\r\n"` the folded field's original text including its
trailing CRLF is `"From: a\r\n\tb" ++ CRLF`, but the stored value carries a
second CRLF. -/
theorem folded_header_extra_crlf_counterexample :
    parse_email_internal "From: a\r\n\tb\r\n".toList =
      .ok ⟨[("from".toList, ["From: a\r\n\tb\r\n\r\n".toList])], []⟩ ∧
    "From: a\r\n\tb\r\n\r\n".toList ≠ "From: a\r\n\tb".toList ++ ['\r', '\n'] :=
  ⟨rfl, by decide⟩

/-- Witness for C6 at concrete inputs: a folded header followed by a body
is stored verbatim plus exactly one CRLF, and in a headers-only folded
message the value is the verbatim final piece plus one CRLF, where that
piece keeps the block's terminating CRLF. -/
theorem folded_header_value_witness :
    (∃ f ∈ splitFields "Subject: a\r\n\tb".toList,
      "Subject: a\r\n\tb\r\n".toList = f ++ ['\r', '\n'] ∧ trimRust f ≠ []) ∧
    joinSep ['\r', '\n'] (splitFields "Subject: a\r\n\tb".toList) =
      "Subject: a\r\n\tb".toList ∧
    (∃ f ∈ splitFields (normalizeCrlf "From: a\r\n\tb\r\n".toList),
      "From: a\r\n\tb\r\n\r\n".toList = f ++ ['\r', '\n'] ∧ trimRust f ≠ []) ∧
    (['\r', '\n'] : List Char) <:+ "From: a\r\n\tb\r\n".toList := by
  have h1 := folded_header_value_amended.1 "Subject: a\r\n\tb\r\n\r\nBody".toList
    "Subject: a\r\n\tb".toList "Body".toList
    ⟨[("subject".toList, ["Subject: a\r\n\tb\r\n".toList])], "Body".toList⟩ rfl rfl
  have h2 := folded_header_value_amended.2 "From: a\r\n\tb\r\n".toList
    ⟨[("from".toList, ["From: a\r\n\tb\r\n\r\n".toList])], []⟩ rfl rfl
  exact ⟨h1.1 "subject".toList ["Subject: a\r\n\tb\r\n".toList] rfl
      "Subject: a\r\n\tb\r\n".toList (by decide),
    h1.2,
    h2.1 "from".toList ["From: a\r\n\tb\r\n\r\n".toList] rfl
      "From: a\r\n\tb\r\n\r\n".toList (by decide),
    h2.2.2 "From: a\r\n\tb\r\n".toList rfl⟩

theorem mem_takeWhile_sat (p : Char → Bool) (l : List Char) (x : Char)
    (h : x ∈ l.takeWhile p) : p x = true := by
  induction l with
  | nil => cases h
  | cons c rest ih =>
    rw [List.takeWhile_cons] at h
    split at h
    · rename_i hc
      rcases List.mem_cons.mp h with h1 | h1
      · subst h1
        exact hc
      · exact ih h1
    · cases h

theorem takeWhile_append_sat (p : Char → Bool) (l r : List Char) (y : Char)
    (hl : ∀ x ∈ l, p x = true) (hy : p y = false) :
    (l ++ y :: r).takeWhile p = l := by
  induction l with
  | nil => simp [List.takeWhile_cons, hy]
  | cons c rest ih =>
    have hc : p c = true := hl c (List.mem_cons_self c rest)
    simp only [List.cons_append, List.takeWhile_cons, hc, if_true]
    rw [ih (fun x hx => hl x (List.mem_cons_of_mem c hx))]

theorem drop_len_takeWhile (p : Char → Bool) (l : List Char) :
    l.drop (l.takeWhile p).length = l.dropWhile p := by
  induction l with
  | nil => rfl
  | cons c rest ih =>
    by_cases h : p c
    · simp [List.takeWhile_cons, List.dropWhile_cons, h, ih]
    · simp [List.takeWhile_cons, List.dropWhile_cons, h]

theorem dropWhile_head_false (p : Char → Bool) (l : List Char) (y : Char) (r : List Char)
    (h : l.dropWhile p = y :: r) : p y = false := by
  induction l with
  | nil => cases h
  | cons c rest ih =>
    rw [List.dropWhile_cons] at h
    split at h
    · exact ih h
    · rename_i hc
      injection h with h1 h2
      subst h1
      simpa using hc

theorem firstAngleCapture_cons_ne (c : Char) (rest : List Char) (h : c ≠ '<') :
    firstAngleCapture (c :: rest) = firstAngleCapture rest := by
  conv_lhs => rw [firstAngleCapture]
  rw [if_neg h]

theorem firstAngleCapture_append (pre t : List Char) (h : '<' ∉ pre) :
    firstAngleCapture (pre ++ t) = firstAngleCapture t := by
  induction pre with
  | nil => rfl
  | cons c rest ih =>
    rw [List.mem_cons] at h
    push_neg at h
    rw [List.cons_append, firstAngleCapture_cons_ne _ _ (fun hc => h.1 hc.symm), ih h.2]

theorem firstAngleCapture_head (mid post : List Char) (hm : mid ≠ [])
    (hgt : ∀ x ∈ mid, x ≠ '>') :
    firstAngleCapture ('<' :: (mid ++ '>' :: post)) = some mid := by
  have ht : (mid ++ '>' :: post).takeWhile (fun x => decide (x ≠ '>')) = mid :=
    takeWhile_append_sat _ _ _ _ (fun x hx => decide_eq_true (hgt x hx)) (by decide)
  unfold firstAngleCapture
  rw [if_pos rfl, ht, List.drop_left]
  rw [if_pos ⟨hm, by simp⟩]

theorem containsAnglePair_cons (c : Char) (rest : List Char)
    (h : containsAnglePair rest) : containsAnglePair (c :: rest) := by
  obtain ⟨pre, mid, post, heq, hm, hgt⟩ := h
  exact ⟨c :: pre, mid, post, by rw [heq]; rfl, hm, hgt⟩

theorem containsAnglePair_capture :
    ∀ s : List Char, containsAnglePair s → ∃ t, firstAngleCapture s = some t
  | [], h => by
    obtain ⟨pre, mid, post, heq, -, -⟩ := h
    exact absurd heq.symm (by simp)
  | c :: rest, h => by
    obtain ⟨pre, mid, post, heq, hm, hgt⟩ := h
    cases pre with
    | nil =>
      rw [List.nil_append] at heq
      injection heq with h1 h2
      subst h1
      subst h2
      exact ⟨mid, firstAngleCapture_head mid post hm hgt⟩
    | cons q pre2 =>
      rw [List.cons_append] at heq
      injection heq with h1 h2
      have hrest : containsAnglePair rest := ⟨pre2, mid, post, h2, hm, hgt⟩
      obtain ⟨t, ht⟩ := containsAnglePair_capture rest hrest
      by_cases hc : c = '<'
      · subst hc
        unfold firstAngleCapture
        rw [if_pos rfl]
        split
        · exact ⟨_, rfl⟩
        · exact ⟨t, ht⟩
      · rw [firstAngleCapture_cons_ne c rest hc]
        exact ⟨t, ht⟩

theorem capture_some_contains :
    ∀ s t : List Char, firstAngleCapture s = some t → containsAnglePair s
  | [], t, h => by cases h
  | c :: rest, t, h => by
    by_cases hc : c = '<'
    · subst hc
      unfold firstAngleCapture at h
      rw [if_pos rfl] at h
      split at h
      · rename_i hcond
        injection h with h1
        obtain ⟨htw, hdrop⟩ := hcond
        rw [drop_len_takeWhile] at hdrop
        cases hdw : rest.dropWhile (fun x => decide (x ≠ '>')) with
        | nil => exact absurd hdw hdrop
        | cons y r2 =>
          have hy : (decide (y ≠ '>')) = false := dropWhile_head_false _ _ _ _ hdw
          have hy2 : y = '>' := by
            by_cases hgt : y = '>'
            · exact hgt
            · rw [decide_eq_true hgt] at hy
              cases hy
          subst hy2
          refine ⟨[], rest.takeWhile (fun x => decide (x ≠ '>')), r2, ?_, htw, ?_⟩
          · rw [List.nil_append]
            have hsplit := List.takeWhile_append_dropWhile
              (p := fun x => decide (x ≠ '>')) (l := rest)
            rw [hdw] at hsplit
            exact congrArg (fun l => '<' :: l) hsplit.symm
          · intro x hx
            have := mem_takeWhile_sat _ _ _ hx
            exact of_decide_eq_true this
      · exact containsAnglePair_cons _ _ (capture_some_contains rest t h)
    · rw [firstAngleCapture_cons_ne c rest hc] at h
      exact containsAnglePair_cons _ _ (capture_some_contains rest t h)

theorem capture_none_not_contains (s : List Char) (h : firstAngleCapture s = none) :
    ¬containsAnglePair s := by
  intro hc
  obtain ⟨t, ht⟩ := containsAnglePair_capture s hc
  rw [h] at ht
  cases ht

/-- Skipping an empty pair: at a `'<'` immediately followed by `'>'` the
capture attempt takes no characters and fails, and the scan resumes. -/
theorem firstAngleCapture_lt_gt (rest : List Char) :
    firstAngleCapture ('<' :: '>' :: rest) = firstAngleCapture ('>' :: rest) := by
  have htw : (('>' :: rest).takeWhile fun x => decide (x ≠ '>')) = [] := by
    simp [List.takeWhile_cons]
  conv_lhs => rw [firstAngleCapture]
  rw [if_pos rfl, htw]
  rw [if_neg (by simp)]

theorem emptyAngleOnly_cons_ne (c : Char) (l : List Char) (hc : c ≠ '<') :
    emptyAngleOnly (c :: l) = emptyAngleOnly l := by
  cases l with
  | nil => simp [emptyAngleOnly, hc]
  | cons d rest => simp [emptyAngleOnly, hc]

/-- The scan of the angle regex passes unchanged over any prefix consisting
only of empty-pair material. -/
theorem firstAngleCapture_append_empty :
    ∀ pre : List Char, emptyAngleOnly pre = true →
      ∀ t, firstAngleCapture (pre ++ t) = firstAngleCapture t
  | [], _, t => rfl
  | [c], h, t => by
    simp only [emptyAngleOnly] at h
    split at h
    · cases h
    · rename_i hc
      rw [List.singleton_append, firstAngleCapture_cons_ne c t hc]
  | c :: d :: rest, h, t => by
    simp only [emptyAngleOnly] at h
    split at h
    · rename_i hc
      subst hc
      split at h
      · rename_i hd
        subst hd
        rw [List.cons_append, List.cons_append, firstAngleCapture_lt_gt,
            firstAngleCapture_cons_ne '>' _ (by decide)]
        exact firstAngleCapture_append_empty rest h t
      · cases h
    · rename_i hc
      rw [List.cons_append, firstAngleCapture_cons_ne c _ hc]
      exact firstAngleCapture_append_empty (d :: rest) h t

/-- A successful capture decomposes its input: an empty-pair-only prefix,
then the matched non-empty pair holding exactly the captured text. -/
theorem capture_decomposition :
    ∀ s t : List Char, firstAngleCapture s = some t →
      ∃ pre post, s = pre ++ '<' :: (t ++ '>' :: post) ∧ emptyAngleOnly pre = true ∧
        t ≠ [] ∧ ∀ x ∈ t, x ≠ '>'
  | [], t, h => by cases h
  | c :: rest, t, h => by
    by_cases hc : c = '<'
    · subst hc
      unfold firstAngleCapture at h
      rw [if_pos rfl] at h
      split at h
      · rename_i hcond
        obtain ⟨htw, hdrop⟩ := hcond
        injection h with h1
        rw [h1] at htw
        rw [drop_len_takeWhile] at hdrop
        cases hdw : rest.dropWhile (fun x => decide (x ≠ '>')) with
        | nil => exact absurd hdw hdrop
        | cons y r2 =>
          have hy : (decide (y ≠ '>')) = false := dropWhile_head_false _ _ _ _ hdw
          have hy2 : y = '>' := by
            by_cases hgt : y = '>'
            · exact hgt
            · rw [decide_eq_true hgt] at hy
              cases hy
          subst hy2
          have hsplit := List.takeWhile_append_dropWhile
            (p := fun x => decide (x ≠ '>')) (l := rest)
          rw [hdw, h1] at hsplit
          refine ⟨[], r2, ?_, rfl, htw, ?_⟩
          · rw [List.nil_append]
            exact congrArg (fun l => '<' :: l) hsplit.symm
          · intro x hx
            have hx2 : x ∈ rest.takeWhile (fun x => decide (x ≠ '>')) := by
              rw [h1]
              exact hx
            exact of_decide_eq_true (mem_takeWhile_sat _ _ _ hx2)
      · rename_i hcond
        obtain ⟨pre2, post, hrest, hem, hne, hgt⟩ := capture_decomposition rest t h
        have hdropne : rest.dropWhile (fun x => decide (x ≠ '>')) ≠ [] := by
          intro hd
          have hall := List.dropWhile_eq_nil_iff.mp hd
          have hgtmem : '>' ∈ rest := by
            rw [hrest]
            refine List.mem_append.mpr (Or.inr (List.mem_cons.mpr (Or.inr ?_)))
            exact List.mem_append.mpr (Or.inr (List.mem_cons_self '>' post))
          have := hall '>' hgtmem
          simp at this
        have htw0 : rest.takeWhile (fun x => decide (x ≠ '>')) = [] := by
          by_contra htw
          apply hcond
          refine ⟨htw, ?_⟩
          rw [drop_len_takeWhile]
          exact hdropne
        cases rest with
        | nil => exact absurd hrest.symm (by simp)
        | cons d rest2 =>
          have hd : d = '>' := by
            by_cases hdg : d = '>'
            · exact hdg
            · rw [List.takeWhile_cons, if_pos (decide_eq_true hdg)] at htw0
              cases htw0
          subst hd
          cases pre2 with
          | nil =>
            rw [List.nil_append] at hrest
            injection hrest with hx hx2
            exact absurd hx (by decide)
          | cons q pre3 =>
            rw [List.cons_append] at hrest
            injection hrest with hq hrest2
            refine ⟨'<' :: '>' :: pre3, post, ?_, ?_, hne, hgt⟩
            · rw [List.cons_append, List.cons_append]
              exact congrArg (fun l => '<' :: '>' :: l) hrest2
            · have hem2 : emptyAngleOnly ('>' :: pre3) = true := by
                rw [hq]
                exact hem
              rw [show emptyAngleOnly ('<' :: '>' :: pre3) = emptyAngleOnly pre3 from by
                simp [emptyAngleOnly]]
              rw [← emptyAngleOnly_cons_ne '>' pre3 (by decide)]
              exact hem2
    · rw [firstAngleCapture_cons_ne c rest hc] at h
      obtain ⟨pre2, post, hrest, hem, hne, hgt⟩ := capture_decomposition rest t h
      refine ⟨c :: pre2, post, ?_, ?_, hne, hgt⟩
      · rw [List.cons_append]
        exact congrArg (fun l => c :: l) hrest
      · rw [emptyAngleOnly_cons_ne c pre2 hc]
        exact hem

/-- Claim C10 (amended): `extract_email_address` returns the raw text inside
the first non-empty angle-bracket pair — the pair preceded only by material
whose every `'<'` is immediately followed by `'>'` (empty pairs, which the
regex `<([^>]+)>` cannot match) — without validating it; every input
containing a non-empty pair decomposes that way and yields that first
pair's content; the bare-address scan decides the result only when no
non-empty pair exists; and when neither pattern matches the function
returns an error, never an empty string.  (Amended from the original
claim: an empty pair `<>` is skipped rather than matched.) -/
theorem extract_email_amended :
    (∀ pre mid post : List Char, emptyAngleOnly pre = true → mid ≠ [] →
      (∀ x ∈ mid, x ≠ '>') →
      extract_email_address (pre ++ '<' :: (mid ++ '>' :: post)) = .ok mid) ∧
    (∀ s : List Char, containsAnglePair s →
      ∃ pre mid post, s = pre ++ '<' :: (mid ++ '>' :: post) ∧
        emptyAngleOnly pre = true ∧ mid ≠ [] ∧ (∀ x ∈ mid, x ≠ '>') ∧
        extract_email_address s = .ok mid) ∧
    (∀ s e : List Char, ¬containsAnglePair s →
      (extract_email_address s = .ok e ↔ bareEmailMatch s = some e)) ∧
    (∀ s : List Char, ¬containsAnglePair s → bareEmailMatch s = none →
      extract_email_address s = .error "No email address found".toList) := by
  have hcapnone : ∀ s : List Char, ¬containsAnglePair s → firstAngleCapture s = none := by
    intro s hnc
    cases hc : firstAngleCapture s with
    | none => rfl
    | some t => exact absurd (capture_some_contains s t hc) hnc
  refine ⟨?_, ?_, ?_, ?_⟩
  · intro pre mid post hpre hm hgt
    have hcap : firstAngleCapture (pre ++ '<' :: (mid ++ '>' :: post)) = some mid := by
      rw [firstAngleCapture_append_empty pre hpre]
      exact firstAngleCapture_head mid post hm hgt
    unfold extract_email_address
    rw [hcap]
  · intro s hs
    obtain ⟨t, ht⟩ := containsAnglePair_capture s hs
    obtain ⟨pre, post, hdecomp, hem, hne, hgt⟩ := capture_decomposition s t ht
    refine ⟨pre, t, post, hdecomp, hem, hne, hgt, ?_⟩
    unfold extract_email_address
    rw [ht]
  · intro s e hnc
    unfold extract_email_address
    rw [hcapnone s hnc]
    cases hb : bareEmailMatch s with
    | some e2 => simp
    | none => simp
  · intro s hnc hb
    unfold extract_email_address
    rw [hcapnone s hnc, hb]

/-- Counterexample for C10 as stated: the input `"<>"` contains an
angle-bracket pair, so the claim demands the raw text inside it (the empty
string); the function instead falls through to the bare-address scan and
returns an error. -/
theorem extract_email_empty_pair_counterexample :
    extract_email_address "<>".toList = .error "No email address found".toList ∧
    extract_email_address "<>".toList ≠ .ok ([] : List Char) :=
  ⟨rfl, fun h => Except.noConfusion h⟩

/-- Witness for C10 at concrete inputs: the angle-bracket branch returns a
non-address verbatim, also when empty pairs precede the matched pair; an
input with a pair decomposes as the theorem states; and inputs without a
pair fall to the bare scan or the error. -/
theorem extract_email_amended_witness :
    extract_email_address ("John Doe ".toList ++ '<' ::
        ("not an email".toList ++ '>' :: ([] : List Char))) = .ok "not an email".toList ∧
    extract_email_address ("<>x".toList ++ '<' :: ("ab".toList ++ '>' :: ([] : List Char))) =
      .ok "ab".toList ∧
    (∃ pre mid post, "<>x<ab>".toList = pre ++ '<' :: (mid ++ '>' :: post) ∧
      emptyAngleOnly pre = true ∧ mid ≠ [] ∧ (∀ x ∈ mid, x ≠ '>') ∧
      extract_email_address "<>x<ab>".toList = .ok mid) ∧
    extract_email_address "write to a@b.co now".toList = .ok "a@b.co".toList ∧
    extract_email_address "no address here".toList =
      .error "No email address found".toList := by
  refine ⟨extract_email_amended.1 "John Doe ".toList "not an email".toList []
      (by decide) (by decide) (by decide),
    extract_email_amended.1 "<>x".toList "ab".toList [] (by decide) (by decide) (by decide),
    extract_email_amended.2.1 "<>x<ab>".toList
      ⟨"<>x".toList, "ab".toList, [], rfl, by decide, by decide⟩, ?_, ?_⟩
  · exact (extract_email_amended.2.2.1 "write to a@b.co now".toList "a@b.co".toList
      (capture_none_not_contains _ (by decide))).mpr (by decide)
  · exact extract_email_amended.2.2.2 "no address here".toList
      (capture_none_not_contains _ (by decide)) (by decide)


/-- Claim C8: `compute_body_hash(B, limit)` equals the base64 SHA-256 of the
first `limit` bytes when `0 < limit < len(B)` and of the whole buffer
otherwise; in particular the limits `0` and `len(B)` both give
`sha256_hash(B)`.  Stated for every hash parameter `sha`, since both
functions call the same `sha2` primitive. -/
theorem compute_body_hash_bounded (sha : List Nat → List Nat) (body : List Nat) (limit : Nat) :
    compute_body_hash sha body limit =
      (if 0 < limit ∧ limit < body.length then sha256_hash sha (body.take limit)
        else sha256_hash sha body) ∧
    compute_body_hash sha body 0 = sha256_hash sha body ∧
    compute_body_hash sha body body.length = sha256_hash sha body := by
  refine ⟨?_, ?_, ?_⟩
  · by_cases h : 0 < limit ∧ limit < body.length
    · simp [compute_body_hash, sha256_hash, h]
    · simp [compute_body_hash, sha256_hash, h]
  · simp [compute_body_hash, sha256_hash]
  · simp [compute_body_hash, sha256_hash]

/-- Claim C1 (amended): malformed base64 on either input, an Ed25519 public
key not exactly 32 bytes, an Ed25519 key rejected by point decompression,
an Ed25519 signature not exactly 64 bytes, and an RSA key failing DER
parsing all make the verification calls fail with a typed error (hence they
never return the boolean `false`); but — amended from the original claim —
an RSA signature whose decoded length differs from the key's modulus size
makes `verify_rsa_sha256` return `Ok(false)` rather than a format error,
because the `rsa` crate reports the length mismatch as a verification
`Err`, which `lib.rs` maps to `Ok(false)`. -/
theorem verify_error_taxonomy_amended (edKeyValid : List Nat → Bool)
    (edVerify : List Nat → List Nat → List Nat → Bool) (sha : List Nat → List Nat)
    (parseDer : List Nat → Option RsaKeyModel) (pk sig : List Char) (msg : List Nat) :
    (b64decode pk = none →
      isErr (verify_ed25519 edKeyValid edVerify pk msg sig) = true ∧
      isErr (verify_rsa_sha256 sha parseDer pk msg sig) = true) ∧
    (b64decode sig = none →
      isErr (verify_ed25519 edKeyValid edVerify pk msg sig) = true ∧
      isErr (verify_rsa_sha256 sha parseDer pk msg sig) = true) ∧
    (∀ pkb, b64decode pk = some pkb → pkb.length ≠ 32 →
      isErr (verify_ed25519 edKeyValid edVerify pk msg sig) = true) ∧
    (∀ pkb, b64decode pk = some pkb → pkb.length = 32 → edKeyValid pkb = false →
      isErr (verify_ed25519 edKeyValid edVerify pk msg sig) = true) ∧
    (∀ pkb sgb, b64decode pk = some pkb → b64decode sig = some sgb →
      pkb.length = 32 → edKeyValid pkb = true → sgb.length ≠ 64 →
      isErr (verify_ed25519 edKeyValid edVerify pk msg sig) = true) ∧
    (∀ pkb, b64decode pk = some pkb → parseDer pkb = none →
      isErr (verify_rsa_sha256 sha parseDer pk msg sig) = true) ∧
    (∀ pkb sgb k, b64decode pk = some pkb → b64decode sig = some sgb →
      parseDer pkb = some k → sgb.length ≠ k.size →
      verify_rsa_sha256 sha parseDer pk msg sig = .ok false) := by
  refine ⟨?_, ?_, ?_, ?_, ?_, ?_, ?_⟩
  · intro h
    exact ⟨by simp [verify_ed25519, h, isErr], by simp [verify_rsa_sha256, h, isErr]⟩
  · intro h
    cases hpk : b64decode pk with
    | none => exact ⟨by simp [verify_ed25519, hpk, isErr], by simp [verify_rsa_sha256, hpk, isErr]⟩
    | some pkb =>
      exact ⟨by simp [verify_ed25519, hpk, h, isErr], by simp [verify_rsa_sha256, hpk, h, isErr]⟩
  · intro pkb hpk hlen
    cases hsg : b64decode sig with
    | none => simp [verify_ed25519, hpk, hsg, isErr]
    | some sgb => simp [verify_ed25519, hpk, hsg, hlen, isErr]
  · intro pkb hpk hlen hvalid
    cases hsg : b64decode sig with
    | none => simp [verify_ed25519, hpk, hsg, isErr]
    | some sgb => simp [verify_ed25519, hpk, hsg, hlen, hvalid, isErr]
  · intro pkb sgb hpk hsg h32 hvalid h64
    simp [verify_ed25519, hpk, hsg, h32, hvalid, h64, isErr]
  · intro pkb hpk hparse
    cases hsg : b64decode sig with
    | none => simp [verify_rsa_sha256, hpk, hsg, isErr]
    | some sgb => simp [verify_rsa_sha256, hpk, hsg, hparse, isErr]
  · intro pkb sgb k hpk hsg hparse hlen
    simp [verify_rsa_sha256, hpk, hsg, hparse, rsaCrateVerify, hlen]

/-- Counterexample for C1 as stated: with a DER-parsable two-byte-modulus
key and a well-formed base64 signature decoding to three bytes (the wrong
length for the key), `verify_rsa_sha256` returns `Ok(false)` instead of the
signature-format error the claim requires. -/
theorem rsa_wrong_length_sig_counterexample :
    verify_rsa_sha256 shaZero parseDerSample (b64encode sampleDer) [] "AAAA".toList =
      .ok false ∧
    b64decode "AAAA".toList = some [0, 0, 0] ∧ sampleRsaKey.size = 2 :=
  ⟨rfl, rfl, rfl⟩

/-- Witness for C1 at concrete inputs: undecodable base64 gives a typed
error, and the amended RSA wrong-length case gives `Ok(false)`. -/
theorem verify_error_taxonomy_witness :
    isErr (verify_ed25519 (fun _ => true) (fun _ _ _ => true) "!!!".toList [] "".toList) =
      true ∧
    verify_rsa_sha256 shaZero parseDerSample (b64encode sampleDer) [] "AAAA".toList =
      .ok false := by
  constructor
  · exact ((verify_error_taxonomy_amended (fun _ => true) (fun _ _ _ => true) shaZero
      parseDerSample "!!!".toList "".toList []).1 (by rfl)).1
  · exact (verify_error_taxonomy_amended (fun _ => true) (fun _ _ _ => true) shaZero
      parseDerSample (b64encode sampleDer) "AAAA".toList []).2.2.2.2.2.2 sampleDer
      [0, 0, 0] sampleRsaKey rfl rfl rfl (by decide)

/-- Claim C2: when key and signature are well-formed for the declared
algorithm but the signature is cryptographically invalid, both verification
functions return `Ok(false)` and never raise an error. -/
theorem invalid_signature_returns_false (edKeyValid : List Nat → Bool)
    (edVerify : List Nat → List Nat → List Nat → Bool) (sha : List Nat → List Nat)
    (parseDer : List Nat → Option RsaKeyModel) (pk sig : List Char) (msg : List Nat)
    (pkb sgb : List Nat) :
    (b64decode pk = some pkb → b64decode sig = some sgb → pkb.length = 32 →
      edKeyValid pkb = true → sgb.length = 64 → edVerify pkb msg sgb = false →
      verify_ed25519 edKeyValid edVerify pk msg sig = .ok false) ∧
    (∀ k, b64decode pk = some pkb → b64decode sig = some sgb → parseDer pkb = some k →
      sgb.length = k.size → k.core (sha msg) sgb = false →
      verify_rsa_sha256 sha parseDer pk msg sig = .ok false) := by
  constructor
  · intro hpk hsg h32 hvalid h64 hcrypto
    simp [verify_ed25519, hpk, hsg, h32, hvalid, h64, hcrypto]
  · intro k hpk hsg hparse hlen hcore
    simp [verify_rsa_sha256, hpk, hsg, hparse, rsaCrateVerify, hlen, hcore]

/-- Witness for C2 at concrete inputs: a 32-byte key and 64-byte signature
with a rejecting curve check give `Ok(false)` for Ed25519, and a parsed key
with matching signature length but failing padding comparison gives
`Ok(false)` for RSA. -/
theorem invalid_signature_returns_false_witness :
    verify_ed25519 (fun _ => true) (fun _ _ _ => false)
      (List.replicate 43 'A' ++ ['=']) [] (List.replicate 86 'A' ++ ['=', '=']) =
      .ok false ∧
    verify_rsa_sha256 shaZero (fun _ => some ⟨3, fun _ _ => false⟩) "".toList []
      "AAAA".toList = .ok false := by
  constructor
  · exact (invalid_signature_returns_false (fun _ => true) (fun _ _ _ => false) shaZero
      (fun _ => some ⟨3, fun _ _ => false⟩) (List.replicate 43 'A' ++ ['='])
      (List.replicate 86 'A' ++ ['=', '=']) [] (List.replicate 32 0)
      (List.replicate 64 0)).1 (by rfl) (by rfl) (by rfl) rfl (by rfl) rfl
  · exact (invalid_signature_returns_false (fun _ => true) (fun _ _ _ => false) shaZero
      (fun _ => some ⟨3, fun _ _ => false⟩) "".toList "AAAA".toList [] [] [0, 0, 0]).2
      ⟨3, fun _ _ => false⟩ rfl rfl rfl rfl rfl
